import Mathlib

/-!
Verification of the MemoryFile core subsystems: the authenticated-encryption
envelope (html-sqlite-core.js), the content-address verifier
(trust-manager.js), the commit-chain simulator (commit cycle tests), and the
save orchestration (saveToFile in both core variants).  Byte arrays are
modelled as lists of naturals, JS strings as Lean strings or lists of
characters, and the host WebCrypto provider as an abstract structure whose
correctness properties are stated explicitly.
-/

namespace MemoryFileVerif

/-! ### Authenticated-encryption envelope (html-sqlite-core.js) -/

/-- Literal message of the short-envelope error thrown by decryptData. -/
def lengthErrMsg : String := "Invalid encrypted data: insufficient length (minimum 29 bytes required)"

/-- Literal message of the empty-password error thrown by encryptData and decryptData. -/
def passwordErrMsg : String := "Password must be a non-empty string"

/-- Literal message of the undifferentiated authentication failure in decryptData. -/
def decryptFailedMsg : String := "Decryption failed: incorrect password or corrupted data"

/-- Literal message of the unsupported-version error thrown by decryptData. -/
def versionErrMsg (v : Nat) : String := "Unsupported encryption version: " ++ toString v

/-- The host cryptographic provider used by deriveKey / crypto.subtle:
PBKDF2 key derivation plus AES-GCM authenticated encryption, abstracted over
the key type.  The source delegates these calls to the Web Crypto API. -/
structure Provider (K : Type) where
  derive : String → List Nat → K
  encrypt : K → List Nat → List Nat → List Nat
  decrypt : K → List Nat → List Nat → Option (List Nat)

/-- MemoryFile.encryptData: password must be a non-empty string, then the
envelope version(1) | salt(16) | iv(12) | ciphertext is assembled.  The salt
and iv are the 16- and 12-byte random values generated in the body; they are
passed in explicitly here. -/
def encryptData {K : Type} (P : Provider K) (salt iv data : List Nat)
    (password : String) : Except String (List Nat) :=
  if password.length = 0 then .error passwordErrMsg
  else .ok (1 :: (salt ++ iv ++ P.encrypt (P.derive password salt) iv data))

/-- MemoryFile.decryptData: length check, password check, version check, then
slice salt = bytes 1..16, iv = bytes 17..28, ciphertext = bytes 29.., re-derive
the key and run authenticated decryption; a decryption failure is reported as
the single undifferentiated message. -/
def decryptData {K : Type} (P : Provider K) (encryptedData : List Nat)
    (password : String) : Except String (List Nat) :=
  if encryptedData.length < 29 then .error lengthErrMsg
  else if password.length = 0 then .error passwordErrMsg
  else if encryptedData.getD 0 0 ≠ 1 then .error (versionErrMsg (encryptedData.getD 0 0))
  else
    match P.decrypt (P.derive password ((encryptedData.drop 1).take 16))
        ((encryptedData.drop 17).take 12) (encryptedData.drop 29) with
    | some m => .ok m
    | none => .error decryptFailedMsg

/-- MemoryFile.isEncryptedData: minimum length, version byte, and the
SQLite-signature exclusion branch, in source order. -/
def isEncryptedData (data : List Nat) : Bool :=
  if data.length < 29 then false
  else if data.getD 0 0 ≠ 1 then false
  else if 16 ≤ data.length ∧ data.getD 0 0 = 0x53 ∧ data.getD 1 0 = 0x51 ∧ data.getD 2 0 = 0x4C then false
  else true

/-- Flip bit b of byte j of a byte list (a single-bit tamper on the wire). -/
def flipByteBit (l : List Nat) (j b : Nat) : List Nat :=
  l.set j (Nat.xor (l.getD j 0) (2 ^ b))

/-- The provider decrypts what it encrypted (AES-GCM functional correctness). -/
def RoundTrips {K : Type} (P : Provider K) : Prop :=
  ∀ k iv m, P.decrypt k iv (P.encrypt k iv m) = some m

/-- Authenticity: anything the provider accepts is an honest ciphertext for
that key and nonce (the AEAD tag check, idealized). -/
def Authentic {K : Type} (P : Provider K) : Prop :=
  ∀ k iv c m, P.decrypt k iv c = some m → P.encrypt k iv m = c

/-- Ciphertexts commit to key, nonce and message (idealized AEAD). -/
def EncryptInjective {K : Type} (P : Provider K) : Prop :=
  ∀ k k2 iv iv2 m m2, P.encrypt k iv m = P.encrypt k2 iv2 m2 →
    k = k2 ∧ iv = iv2 ∧ m = m2

/-- PBKDF2 is collision-free on (password, salt) pairs (idealized). -/
def DeriveInjective {K : Type} (P : Provider K) : Prop :=
  ∀ w w2 s s2, P.derive w s = P.derive w2 s2 → w = w2 ∧ s = s2

/-- Flipping a single bit of a ciphertext makes the provider reject it
(the AEAD tag catches any one-bit corruption, idealized). -/
def TamperEvident {K : Type} (P : Provider K) : Prop :=
  ∀ k iv m j b, j < (P.encrypt k iv m).length → b < 8 →
    P.decrypt k iv (flipByteBit (P.encrypt k iv m) j b) = none

/-! ### A concrete provider satisfying the idealized AEAD properties,
used to instantiate witnesses. -/

/-- Keys of the concrete witness provider: the (password, salt) pair itself. -/
abbrev ToyKey := String × List Nat

/-- Code points of a password string. -/
def strCodes (w : String) : List Nat := w.data.map Char.toNat

/-- Length-prefixed encoding of (key, nonce, message); injective. -/
def encodeK (k : ToyKey) (iv m : List Nat) : List Nat :=
  k.2.length :: (k.2 ++ (iv.length :: (iv ++ ((strCodes k.1).length :: (strCodes k.1 ++ m)))))

/-- Read one length-prefixed block. -/
def readBlock (l : List Nat) : Option (List Nat × List Nat) :=
  match l with
  | [] => none
  | n :: rest => if n ≤ rest.length then some (rest.take n, rest.drop n) else none

/-- Parse the three length-prefixed blocks of encodeK. -/
def decodeK (l : List Nat) : Option (List Nat × List Nat × List Nat × List Nat) :=
  (readBlock l).bind (fun p1 =>
    (readBlock p1.2).bind (fun p2 =>
      (readBlock p2.2).bind (fun p3 => some (p1.1, p2.1, p3.1, p3.2))))

/-- Witness cipher: the encoded payload written twice, so that any single-bit
flip breaks the repetition and is rejected. -/
def toyEncrypt (k : ToyKey) (iv m : List Nat) : List Nat :=
  encodeK k iv m ++ encodeK k iv m

/-- Witness decryption: check the repetition, parse, check key and nonce. -/
def toyDecrypt (k : ToyKey) (iv c : List Nat) : Option (List Nat) :=
  if c.length % 2 = 0 ∧ c.take (c.length / 2) = c.drop (c.length / 2) then
    match decodeK (c.take (c.length / 2)) with
    | some (s, ivd, wc, m) =>
      if s = k.2 ∧ ivd = iv ∧ wc = strCodes k.1 then some m else none
    | none => none
  else none

/-- The concrete witness provider. -/
def toyProvider : Provider ToyKey :=
  { derive := fun w s => (w, s), encrypt := toyEncrypt, decrypt := toyDecrypt }

/-- A concrete 16-byte salt for witnesses. -/
def salt0 : List Nat := List.replicate 16 0

/-- A concrete 12-byte nonce for witnesses. -/
def iv0 : List Nat := List.replicate 12 0

/-- The concrete plaintext of the spec scenario. -/
def dataC : List Nat := [1, 2, 3, 4, 5]

/-- The concrete envelope produced by encryptData on the witness provider. -/
def envC : List Nat := 1 :: (salt0 ++ iv0 ++ toyEncrypt ("correct", salt0) iv0 dataC)

/-- A 29-byte input starting with the SQLite container signature bytes. -/
def sqliteHeader : List Nat := [0x53, 0x51, 0x4C] ++ List.replicate 26 0

/-! ### Content-address verifier (trust-manager.js) -/

/-- JS strings are modelled as lists of characters here. -/
abbrev Str := List Char

/-- The character class of the hash capture group, [a-f0-9] with the i flag. -/
def isHexDigit (c : Char) : Bool :=
  (('0' ≤ c && c ≤ '9') || ('a' ≤ c && c ≤ 'f')) || ('A' ≤ c && c ≤ 'F')

/-- The character list of the literal suffix ".html". -/
def dotHtml : Str := ['.', 'h', 't', 'm', 'l']

/-- Does the remainder equal the anchored case-insensitive literal ".html$"? -/
def isDotHtmlSuffix (r : Str) : Bool :=
  r.map Char.toLower == dotHtml

/-- One attempted match of /\.([a-f0-9]{6,64})\.html$/i at a fixed start
position: a literal dot, a greedy hex run of length 6..64, then ".html" at
the end of the string; the capture is lowercased as in the source. -/
def tryMatch (s : Str) : Option Str :=
  match s with
  | [] => none
  | c :: rest =>
    if c = '.' ∧ 6 ≤ (rest.takeWhile isHexDigit).length
        ∧ (rest.takeWhile isHexDigit).length ≤ 64
        ∧ isDotHtmlSuffix (rest.dropWhile isHexDigit) then
      some ((rest.takeWhile isHexDigit).map Char.toLower)
    else none

/-- Leftmost regex match: try each start position left to right. -/
def scanExtract : Str → Option Str
  | [] => none
  | c :: rest =>
    match tryMatch (c :: rest) with
    | some h => some h
    | none => scanExtract rest

/-- TrustManager.extractHashFromFilename. -/
def extractHashFromFilename (filename : Str) : Option Str := scanExtract filename

/-- The verification statuses produced by TrustManager.verify. -/
inductive VStatus where
  | VERIFIED
  | UNVERIFIED
  | TAMPERED
deriving DecidableEq

/-- The result object assembled by TrustManager.verify; absent JS fields are
none. -/
structure VerificationResult where
  status : VStatus
  reason : Option Str
  hash : Option Str
  fullHash : Option Str
  expected : Option Str
  actual : Option Str
  fullExpected : Option Str
  fullActual : Option Str
  filename : Option Str
deriving DecidableEq

/-- The reason string of the no-hash branch. -/
def noHashReason : Str := "No hash found in filename".data

/-- The reason prefix of the catch branch. -/
def verifyErrReason (e : Str) : Str := "Verification error: ".data ++ e

/-- JS String.startsWith. -/
def jsStartsWith (s p : Str) : Bool := s.take p.length == p

/-- TrustManager.verify, with the digest recomputation (generateContentHash
over the page content) supplied as an Except value: ok is its hex digest,
error is a thrown exception caught by the surrounding try. -/
def verify (digestResult : Except Str Str) (filename : Str) : VerificationResult :=
  match extractHashFromFilename filename with
  | none =>
    ⟨.UNVERIFIED, some noHashReason, none, none, none, none, none, none, some filename⟩
  | some expectedHash =>
    match digestResult with
    | .ok actualHash =>
      if jsStartsWith actualHash expectedHash then
        ⟨.VERIFIED, none, some expectedHash, some actualHash, none, none, none, none,
          some filename⟩
      else
        ⟨.TAMPERED, none, none, none, some expectedHash,
          some (actualHash.take expectedHash.length), some expectedHash, some actualHash,
          some filename⟩
    | .error e =>
      ⟨.UNVERIFIED, some (verifyErrReason e), none, none, none, none, none, none, none⟩

/-- Hex encoding of a byte list, two lowercase digits per byte, as in
generateContentHash (toString(16).padStart(2, "0")). -/
def hexEncode : List Nat → Str
  | [] => []
  | b :: rest => Nat.digitChar (b / 16) :: Nat.digitChar (b % 16) :: hexEncode rest

/-- TrustManager.generateContentHash: the SHA-256 of the normalized content
(the sha argument models crypto.subtle.digest composed with normalizeHTML and
the UTF-8 encoder) rendered as 64 lowercase hex characters. -/
def generateContentHash (sha : Str → List Nat) (content : Str) : Str :=
  hexEncode (sha content)

/-- TrustManager.generateCommitFilename: basename . shortHash . html where
shortHash is the first hashLength characters of the content hash. -/
def generateCommitFilename (hashLength : Nat) (sha : Str → List Nat)
    (basename content : Str) : Str :=
  basename ++ ('.' :: (generateContentHash sha content).take hashLength) ++ dotHtml

/-! ### Commit-chain simulator (MemoryFileSimulator, commit cycle tests) -/

/-- One row of the commits table. -/
structure CommitRecord where
  hash : String
  parentHash : Option String
  message : String
  createdAt : String
deriving DecidableEq

/-- The simulator metadata object. -/
structure SimMetadata where
  commitHash : Option String
  parentHash : Option String
  commitMessage : Option String
  commitDate : Option String
deriving DecidableEq

/-- The simulator state: entries table, commits table, metadata. -/
structure SimState where
  entries : List String
  commits : List CommitRecord
  metadata : SimMetadata
deriving DecidableEq

/-- The state after createSchema, before ensureInitialCommit. -/
def initialSimState : SimState := ⟨[], [], ⟨none, none, none, none⟩⟩

/-- The hash column of the commits table. -/
def commitHashes (s : SimState) : List String := s.commits.map CommitRecord.hash

/-- SQLite INSERT OR IGNORE on a table whose primary key is the hash. -/
def insertOrIgnore (r : CommitRecord) (cs : List CommitRecord) : List CommitRecord :=
  if r.hash ∈ cs.map CommitRecord.hash then cs else cs ++ [r]

/-- JS String.prototype.slice(0, 50), used for commit messages. -/
def slice50 (t : String) : String := String.mk (t.data.take 50)

/-- MemoryFileSimulator.ensureInitialCommit: a no-op once metadata.commitHash
is set, otherwise inserts the root record (parent null) with OR IGNORE; the
generated hash and timestamp are passed in. -/
def ensureInitialCommit (h now : String) (s : SimState) : SimState :=
  match s.metadata.commitHash with
  | some _ => s
  | none =>
    { s with
      metadata := ⟨some h, none, some "Initial commit", some now⟩
      commits := insertOrIgnore ⟨h, none, "Initial commit", now⟩ s.commits }

/-- MemoryFileSimulator.addEntry: inserts the entry row, then a plain INSERT
of the commit row keyed by the generated hash (passed in), parented on the
current metadata.commitHash.  A duplicate hash violates the primary key, the
INSERT throws, and neither the commits table nor the metadata changes; the
Bool records whether the insert succeeded. -/
def addEntry (h now text : String) (s : SimState) : SimState × Bool :=
  if h ∈ commitHashes s then ({ s with entries := s.entries ++ [text] }, false)
  else
    ({ entries := s.entries ++ [text]
       commits := s.commits ++ [⟨h, s.metadata.commitHash, slice50 text, now⟩]
       metadata := ⟨some h, s.metadata.commitHash, some (slice50 text), some now⟩ }, true)

/-- MemoryFileSimulator.clearData: DELETE FROM entries; DELETE FROM commits
WHERE parent_hash IS NOT NULL.  The metadata is not touched. -/
def clearData (s : SimState) : SimState :=
  { s with entries := [], commits := s.commits.filter (fun r => r.parentHash.isNone) }

/-- The operations of the commit store considered by the invariant claim. -/
inductive SimOp where
  | add (h now text : String)
  | clear
  | ensure (h now : String)
deriving DecidableEq

/-- Apply one operation (a failed add leaves the store as the code does). -/
def applyOp (s : SimState) : SimOp → SimState
  | .add h now text => (addEntry h now text s).1
  | .clear => clearData s
  | .ensure h now => ensureInitialCommit h now s

/-- Run a sequence of operations. -/
def runOps (s : SimState) (ops : List SimOp) : SimState := ops.foldl applyOp s

/-- Number of root records (parent_hash IS NULL) in the commits table. -/
def rootCount (s : SimState) : Nat :=
  (s.commits.filter (fun r => r.parentHash.isNone)).length

/-- Does every non-null parentHash reference a hash present in the table? -/
def parentsResolve (s : SimState) : Bool :=
  s.commits.all (fun r =>
    match r.parentHash with
    | none => true
    | some p => p ∈ commitHashes s)

/-- Input of one append: the generated hash, timestamp, and entry text. -/
structure AddIn where
  h : String
  now : String
  text : String
deriving DecidableEq

/-- Run a sequence of addEntry calls. -/
def runAppends (s : SimState) (l : List AddIn) : SimState :=
  l.foldl (fun s a => (addEntry a.h a.now a.text s).1) s

/-- The chain of commit records produced by successful sequential appends
starting from head parent. -/
def mkChain (parent : String) : List AddIn → List CommitRecord
  | [] => []
  | a :: rest => ⟨a.h, some parent, slice50 a.text, a.now⟩ :: mkChain a.h rest

/-- The head hash after a sequence of appends on head parent. -/
def lastHash (parent : String) : List AddIn → String
  | [] => parent
  | a :: rest => lastHash a.h rest

/-- The four appends of the spec scenario (messages M1..M4). -/
def addIns4 : List AddIn :=
  [⟨"h1", "t1", "M1"⟩, ⟨"h2", "t2", "M2"⟩, ⟨"h3", "t3", "M3"⟩, ⟨"h4", "t4", "M4"⟩]

/-! ### Save orchestration (MemoryFile.saveToFile, both variants) -/

/-- The host environment of one save: File System Access availability and
whether the user cancels the picker (AbortError). -/
structure SaveEnv where
  hasPicker : Bool
  userCancels : Bool
deriving DecidableEq

/-- The session state tracked by the claim: the password field of the core
MemoryFile, plus the encryption option. -/
structure CoreSession where
  currentPassword : Option String
  encrypted : Bool
deriving DecidableEq

/-- The outcome object of saveToFile: success, cancellation (with its
success flag), or a thrown error. -/
inductive SaveOutcome where
  | committed (method : String) (passwordChanged : Bool)
  | cancelled (success : Bool)
  | failed (msg : String)
deriving DecidableEq

/-- JS truthiness of an optional string (null and "" are falsy). -/
def strTruthy : Option String → Bool
  | none => false
  | some s => !(s == "")

/-- JS password || currentPassword. -/
def jsOrPassword (pw cur : Option String) : Option String :=
  if strTruthy pw then pw else cur

/-- MemoryFile.saveToFile of html-sqlite-core.js, reduced to the state and
outcome the claim speaks about: the encrypted-but-no-password failure, the
picker path with user cancellation, the fallback download path, and the
adoption of a requested password change only after a successful write. -/
def coreSaveToFile (env : SaveEnv) (sess : CoreSession) (password : Option String)
    (changePassword : Bool) : SaveOutcome × CoreSession :=
  if sess.encrypted && !(strTruthy (jsOrPassword password sess.currentPassword)) then
    (.failed "Save failed: Password required: Encryption is enabled but no password provided",
      sess)
  else if env.hasPicker then
    if env.userCancels then (.cancelled false, sess)
    else
      (.committed "file-system-access" (changePassword && strTruthy password),
        if changePassword && strTruthy password then { sess with currentPassword := password }
        else sess)
  else
    (.committed "download" (changePassword && strTruthy password),
      if changePassword && strTruthy password then { sess with currentPassword := password }
      else sess)

/-- The session state of the storage-persisting variant (unnamed part_007). -/
structure P7Session where
  currentPassword : Option String
  encrypted : Bool
  persistToStorage : Bool
deriving DecidableEq

/-- saveToFile of the storage-persisting variant: when persistToStorage is
enabled, a requested password change is adopted and the data persisted to
IndexedDB before anything else; cancellation of the picker then reports
success equal to persistToStorage.  The iOS share branch is omitted (its
capability flags are false in the modelled environment). -/
def p7SaveToFile (env : SaveEnv) (sess : P7Session) (password : Option String)
    (changePassword : Bool) : SaveOutcome × P7Session :=
  let sess1 : P7Session :=
    if sess.persistToStorage && (changePassword && strTruthy password) then
      { sess with currentPassword := password }
    else sess
  if sess1.encrypted && !(strTruthy (jsOrPassword password sess1.currentPassword)) then
    (.failed "Save failed: Password required: Encryption is enabled but no password provided",
      sess1)
  else if env.hasPicker then
    if env.userCancels then (.cancelled sess1.persistToStorage, sess1)
    else
      (.committed "file-system-access" (changePassword && strTruthy password),
        if changePassword && strTruthy password then { sess1 with currentPassword := password }
        else sess1)
  else
    (.committed (if sess1.persistToStorage then "storage" else "download")
        (changePassword && strTruthy password),
      if changePassword && strTruthy password then { sess1 with currentPassword := password }
      else sess1)

/-! ### Generic helper lemmas -/

theorem xor_pow_ne (x n : Nat) : Nat.xor x (2 ^ n) ≠ x := by
  show x ^^^ 2 ^ n ≠ x
  intro h
  have h2 : x ^^^ (x ^^^ 2 ^ n) = x ^^^ x := congrArg (x ^^^ ·) h
  rw [Nat.xor_cancel_left, Nat.xor_self] at h2
  exact Nat.pos_iff_ne_zero.mp (Nat.pos_pow_of_pos n (by norm_num)) h2

theorem getD_set_self (l : List Nat) (i v d : Nat) (h : i < l.length) :
    (l.set i v).getD i d = v := by
  rw [List.getD_eq_getElem?_getD, List.getElem?_set_self', List.getElem?_eq_getElem h]
  rfl

theorem set_ne_self (l : List Nat) (i v : Nat) (h : i < l.length) (hv : v ≠ l.getD i 0) :
    l.set i v ≠ l := by
  intro he
  apply hv
  have h2 : (l.set i v).getD i 0 = l.getD i 0 := congrArg (fun t => t.getD i 0) he
  rw [getD_set_self l i v 0 h] at h2
  exact h2

theorem flip_ne_self (l : List Nat) (j b : Nat) (hj : j < l.length) :
    flipByteBit l j b ≠ l :=
  set_ne_self l j _ hj (xor_pow_ne _ b)

theorem env_parts (salt iv ct : List Nat) (hs : salt.length = 16) (hiv : iv.length = 12) :
    (1 :: (salt ++ iv ++ ct)).length = 29 + ct.length
    ∧ (1 :: (salt ++ iv ++ ct)).getD 0 0 = 1
    ∧ ((1 :: (salt ++ iv ++ ct)).drop 1).take 16 = salt
    ∧ ((1 :: (salt ++ iv ++ ct)).drop 17).take 12 = iv
    ∧ (1 :: (salt ++ iv ++ ct)).drop 29 = ct := by
  refine ⟨by simp [hs, hiv]; omega, rfl, ?_, ?_, ?_⟩
  · rw [List.drop_one, List.tail_cons, List.append_assoc]
    exact List.take_left' hs
  · rw [show (17 : Nat) = 16 + 1 from rfl, List.drop_succ_cons, List.append_assoc,
      List.drop_left' hs]
    exact List.take_left' hiv
  · rw [show (29 : Nat) = 28 + 1 from rfl, List.drop_succ_cons]
    exact List.drop_left' (by simp [hs, hiv])

theorem encryptData_ok {K : Type} (P : Provider K) (salt iv data : List Nat)
    (password : String) (env : List Nat)
    (henc : encryptData P salt iv data password = .ok env) :
    password.length ≠ 0
    ∧ env = 1 :: (salt ++ iv ++ P.encrypt (P.derive password salt) iv data) := by
  unfold encryptData at henc
  by_cases hpw : password.length = 0
  · rw [if_pos hpw] at henc
    exact absurd henc (by simp)
  · rw [if_neg hpw] at henc
    simp only [Except.ok.injEq] at henc
    exact ⟨hpw, henc.symm⟩

theorem decryptData_main {K : Type} (P : Provider K) (e : List Nat) (password : String)
    (hlen : ¬ e.length < 29) (hpw : password.length ≠ 0) (hv : e.getD 0 0 = 1) :
    decryptData P e password =
      match P.decrypt (P.derive password ((e.drop 1).take 16)) ((e.drop 17).take 12)
          (e.drop 29) with
      | some m => .ok m
      | none => .error decryptFailedMsg := by
  unfold decryptData
  rw [if_neg hlen, if_neg hpw, if_neg (by rw [hv]; simp)]

/-! ### C1: encrypt/decrypt round-trip -/

/-- C1: with the host provider decrypting what it encrypts, decryptData of
encryptData returns the original plaintext for every plaintext and non-empty
password (the 16-byte salt and 12-byte nonce generated inside encryptData
are explicit arguments of the embedding). -/
theorem encrypt_decrypt_roundtrip {K : Type} (P : Provider K) (hrt : RoundTrips P)
    (salt iv data : List Nat) (password : String) (env : List Nat)
    (hs : salt.length = 16) (hiv : iv.length = 12)
    (henc : encryptData P salt iv data password = .ok env) :
    decryptData P env password = .ok data := by
  obtain ⟨hpw, henv⟩ := encryptData_ok P salt iv data password env henc
  obtain ⟨hl, hv, hsalt, hivp, hct⟩ := env_parts salt iv
    (P.encrypt (P.derive password salt) iv data) hs hiv
  subst henv
  rw [decryptData_main P _ password (by omega) hpw hv, hsalt, hivp, hct,
    hrt (P.derive password salt) iv data]

/-! ### C4: envelope wire format and early rejection -/

/-- C4: every encryptData output has byte 0 equal to 1, bytes 1..16 the salt,
bytes 17..28 the nonce, bytes 29.. the AEAD output, and total length
29 plus the AEAD output length; decryptData rejects inputs shorter than 29
bytes, and inputs whose byte 0 is not 1 (for a well-typed non-empty
password), before any decryption is attempted. -/
theorem envelope_format {K : Type} (P : Provider K) (salt iv data : List Nat)
    (password : String) (env : List Nat)
    (hs : salt.length = 16) (hiv : iv.length = 12)
    (henc : encryptData P salt iv data password = .ok env) :
    (env.getD 0 0 = 1
      ∧ (env.drop 1).take 16 = salt
      ∧ (env.drop 17).take 12 = iv
      ∧ env.drop 29 = P.encrypt (P.derive password salt) iv data
      ∧ env.length = 29 + (P.encrypt (P.derive password salt) iv data).length)
    ∧ (∀ (e : List Nat) (pw : String), e.length < 29 →
        decryptData P e pw = .error lengthErrMsg)
    ∧ (∀ (e : List Nat) (pw : String), ¬ e.length < 29 → pw.length ≠ 0 →
        e.getD 0 0 ≠ 1 → decryptData P e pw = .error (versionErrMsg (e.getD 0 0))) := by
  obtain ⟨hpw, henv⟩ := encryptData_ok P salt iv data password env henc
  obtain ⟨hl, hv, hsalt, hivp, hct⟩ := env_parts salt iv
    (P.encrypt (P.derive password salt) iv data) hs hiv
  subst henv
  refine ⟨⟨hv, hsalt, hivp, hct, hl⟩, ?_, ?_⟩
  · intro e pw hshort
    unfold decryptData
    rw [if_pos hshort]
  · intro e pw hlen2 hpw2 hver
    unfold decryptData
    rw [if_neg hlen2, if_neg hpw2, if_pos hver]

/-! ### The witness provider satisfies the idealized AEAD properties -/

theorem readBlock_cons (n : Nat) (rest : List Nat) :
    readBlock (n :: rest) =
      if n ≤ rest.length then some (rest.take n, rest.drop n) else none := rfl

theorem readBlock_encode (a r : List Nat) : readBlock (a.length :: (a ++ r)) = some (a, r) := by
  rw [readBlock_cons, if_pos (by simp), List.take_left, List.drop_left]

theorem readBlock_sound (l a r : List Nat) (h : readBlock l = some (a, r)) :
    l = a.length :: (a ++ r) := by
  cases l with
  | nil => simp [readBlock] at h
  | cons n rest =>
    rw [readBlock_cons] at h
    by_cases hn : n ≤ rest.length
    · rw [if_pos hn] at h
      simp only [Option.some.injEq, Prod.mk.injEq] at h
      obtain ⟨ha, hr⟩ := h
      subst ha
      subst hr
      rw [List.take_append_drop]
      simp [List.length_take, Nat.min_eq_left hn]
    · rw [if_neg hn] at h
      cases h

theorem decodeK_encode (k : ToyKey) (iv m : List Nat) :
    decodeK (encodeK k iv m) = some (k.2, iv, strCodes k.1, m) := by
  simp only [decodeK, encodeK, readBlock_encode, Option.some_bind]

theorem decodeK_sound (l s ivd wc m : List Nat) (h : decodeK l = some (s, ivd, wc, m)) :
    l = s.length :: (s ++ (ivd.length :: (ivd ++ (wc.length :: (wc ++ m))))) := by
  unfold decodeK at h
  cases h1 : readBlock l with
  | none => rw [h1] at h; cases h
  | some pr1 =>
    obtain ⟨a1, r1⟩ := pr1
    rw [h1] at h
    simp only [Option.some_bind] at h
    cases h2 : readBlock r1 with
    | none => rw [h2] at h; cases h
    | some pr2 =>
      obtain ⟨a2, r2⟩ := pr2
      rw [h2] at h
      simp only [Option.some_bind] at h
      cases h3 : readBlock r2 with
      | none => rw [h3] at h; cases h
      | some pr3 =>
        obtain ⟨a3, r3⟩ := pr3
        rw [h3] at h
        simp only [Option.some_bind, Option.some.injEq, Prod.mk.injEq] at h
        obtain ⟨hs, hivd, hwc, hm⟩ := h
        rw [← hs, ← hivd, ← hwc, ← hm]
        rw [← readBlock_sound r2 a3 r3 h3, ← readBlock_sound r1 a2 r2 h2,
          ← readBlock_sound l a1 r1 h1]

theorem char_toNat_injective : Function.Injective Char.toNat := by
  intro a b h
  apply Char.eq_of_val_eq
  apply UInt32.eq_of_val_eq
  exact Fin.ext h

theorem strCodes_injective (w w2 : String) (h : strCodes w = strCodes w2) : w = w2 := by
  unfold strCodes at h
  have hd : w.data = w2.data := List.map_injective_iff.mpr char_toNat_injective h
  cases w; cases w2
  exact congrArg String.mk hd

theorem encodeK_inj (k k2 : ToyKey) (iv iv2 m m2 : List Nat)
    (h : encodeK k iv m = encodeK k2 iv2 m2) : k = k2 ∧ iv = iv2 ∧ m = m2 := by
  have h1 := congrArg decodeK h
  rw [decodeK_encode, decodeK_encode] at h1
  simp only [Option.some.injEq, Prod.mk.injEq] at h1
  obtain ⟨hs, hiv, hwc, hm⟩ := h1
  refine ⟨?_, hiv, hm⟩
  have hw := strCodes_injective k.1 k2.1 hwc
  exact Prod.ext hw hs

theorem toy_roundTrips : RoundTrips toyProvider := by
  intro k iv m
  show toyDecrypt k iv (toyEncrypt k iv m) = some m
  have h2 : (encodeK k iv m ++ encodeK k iv m).length / 2 = (encodeK k iv m).length := by
    simp only [List.length_append]
    omega
  unfold toyEncrypt toyDecrypt
  rw [h2, List.take_left, List.drop_left,
    if_pos ⟨by simp only [List.length_append]; omega, rfl⟩, decodeK_encode]
  simp

theorem toy_authentic : Authentic toyProvider := by
  intro k iv c m h
  have h1 : toyDecrypt k iv c = some m := h
  show toyEncrypt k iv m = c
  unfold toyDecrypt at h1
  by_cases hc : c.length % 2 = 0 ∧ c.take (c.length / 2) = c.drop (c.length / 2)
  · rw [if_pos hc] at h1
    cases hdec : decodeK (c.take (c.length / 2)) with
    | none => rw [hdec] at h1; cases h1
    | some x =>
      obtain ⟨s, ivd, wc, m0⟩ := x
      rw [hdec] at h1
      have h2 : (if s = k.2 ∧ ivd = iv ∧ wc = strCodes k.1 then some m0 else none)
          = some m := h1
      by_cases hcond : s = k.2 ∧ ivd = iv ∧ wc = strCodes k.1
      · rw [if_pos hcond] at h2
        simp only [Option.some.injEq] at h2
        obtain ⟨hs, hivd, hwc⟩ := hcond
        have hp := decodeK_sound _ _ _ _ _ hdec
        have hpe : c.take (c.length / 2) = encodeK k iv m := by
          rw [hp, hs, hivd, hwc, h2]
          rfl
        calc toyEncrypt k iv m
            = encodeK k iv m ++ encodeK k iv m := rfl
          _ = c.take (c.length / 2) ++ c.drop (c.length / 2) := by rw [← hpe, hc.2]
          _ = c := List.take_append_drop _ c
      · rw [if_neg hcond] at h2
        cases h2
  · rw [if_neg hc] at h1
    cases h1

theorem toy_encInj : EncryptInjective toyProvider := by
  intro k k2 iv iv2 m m2 h
  have h2 : encodeK k iv m ++ encodeK k iv m = encodeK k2 iv2 m2 ++ encodeK k2 iv2 m2 := h
  have hl : (encodeK k iv m).length = (encodeK k2 iv2 m2).length := by
    have h3 := congrArg List.length h2
    simp only [List.length_append] at h3
    omega
  exact encodeK_inj _ _ _ _ _ _ (List.append_inj h2 hl).1

theorem toy_deriveInj : DeriveInjective toyProvider := by
  intro w w2 s s2 h
  have h2 : (w, s) = (w2, s2) := h
  exact ⟨congrArg Prod.fst h2, congrArg Prod.snd h2⟩

theorem toy_tamper : TamperEvident toyProvider := by
  intro k iv m j b hj hb
  have hj0 : (toyProvider.encrypt k iv m).length
      = (encodeK k iv m).length + (encodeK k iv m).length := by
    show (toyEncrypt k iv m).length = _
    unfold toyEncrypt
    rw [List.length_append]
  rw [hj0] at hj
  show toyDecrypt k iv (flipByteBit (toyEncrypt k iv m) j b) = none
  unfold toyEncrypt flipByteBit toyDecrypt
  by_cases hcase : j < (encodeK k iv m).length
  · rw [List.getD_append _ _ 0 j hcase, @List.set_append_left _ _ _ j _ hcase]
    have hne : (encodeK k iv m).set j
        (Nat.xor ((encodeK k iv m).getD j 0) (2 ^ b)) ≠ encodeK k iv m :=
      set_ne_self _ j _ hcase (xor_pow_ne _ b)
    have hlen2 : ((encodeK k iv m).set j (Nat.xor ((encodeK k iv m).getD j 0) (2 ^ b))
        ++ encodeK k iv m).length / 2
        = ((encodeK k iv m).set j (Nat.xor ((encodeK k iv m).getD j 0) (2 ^ b))).length := by
      simp only [List.length_append, List.length_set]
      omega
    rw [hlen2, List.take_left, List.length_set,
      List.drop_left' (List.length_set _ _ _), if_neg]
    intro hcon
    exact hne hcon.2
  · push_neg at hcase
    rw [List.getD_append_right _ _ 0 j hcase, @List.set_append_right _ _ _ j _ hcase]
    have hj3 : j - (encodeK k iv m).length < (encodeK k iv m).length := by omega
    have hne : (encodeK k iv m).set (j - (encodeK k iv m).length)
        (Nat.xor ((encodeK k iv m).getD (j - (encodeK k iv m).length) 0) (2 ^ b))
        ≠ encodeK k iv m :=
      set_ne_self _ _ _ hj3 (xor_pow_ne _ b)
    have hlen2 : (encodeK k iv m ++ (encodeK k iv m).set (j - (encodeK k iv m).length)
        (Nat.xor ((encodeK k iv m).getD (j - (encodeK k iv m).length) 0) (2 ^ b))).length / 2
        = (encodeK k iv m).length := by
      simp only [List.length_append, List.length_set]
      omega
    rw [hlen2, List.take_left, List.drop_left, if_neg]
    intro hcon
    exact hne hcon.2.symm

/-- Witness for C1 at the spec scenario: plaintext [1,2,3,4,5], password
"correct", concrete salt and nonce, on the witness provider. -/
theorem encrypt_decrypt_roundtrip_witness :
    decryptData toyProvider envC "correct" = .ok dataC :=
  encrypt_decrypt_roundtrip toyProvider toy_roundTrips salt0 iv0 dataC "correct" envC
    (by decide) (by decide) rfl

/-- Witness for C4 at concrete inputs: the witness envelope has version byte 1,
and a 3-byte input is rejected for insufficient length. -/
theorem envelope_format_witness :
    envC.getD 0 0 = 1 ∧ decryptData toyProvider [9, 9, 9] "pw" = .error lengthErrMsg :=
  ⟨(envelope_format toyProvider salt0 iv0 dataC "correct" envC (by decide) (by decide)
      rfl).1.1,
    (envelope_format toyProvider salt0 iv0 dataC "correct" envC (by decide) (by decide)
      rfl).2.1 [9, 9, 9] "pw" (by decide)⟩

/-! ### C2: wrong password and tamper sensitivity -/

theorem flip_length (l : List Nat) (j b : Nat) : (flipByteBit l j b).length = l.length :=
  List.length_set _ _ _

theorem flip_cons (x : Nat) (t : List Nat) (i b : Nat) :
    flipByteBit (x :: t) (i + 1) b = x :: flipByteBit t i b := by
  unfold flipByteBit
  rw [List.getD_cons_succ]
  rfl

theorem flip_cons_zero (x : Nat) (t : List Nat) (b : Nat) :
    flipByteBit (x :: t) 0 b = Nat.xor x (2 ^ b) :: t := rfl

theorem flip_append_left (a c : List Nat) (i b : Nat) (h : i < a.length) :
    flipByteBit (a ++ c) i b = flipByteBit a i b ++ c := by
  unfold flipByteBit
  rw [List.getD_append _ _ 0 i h, @List.set_append_left _ _ _ i _ h]

theorem flip_append_right (a c : List Nat) (i b : Nat) (h : a.length ≤ i) :
    flipByteBit (a ++ c) i b = a ++ flipByteBit c (i - a.length) b := by
  unfold flipByteBit
  rw [List.getD_append_right _ _ 0 i h, @List.set_append_right _ _ _ i _ h]

theorem wrong_key_decrypt_none {K : Type} (P : Provider K) (hauth : Authentic P)
    (hinj : EncryptInjective P) (k k2 : K) (iv m : List Nat) (hk : k2 ≠ k) :
    P.decrypt k2 iv (P.encrypt k iv m) = none := by
  cases hd : P.decrypt k2 iv (P.encrypt k iv m) with
  | none => rfl
  | some m2 =>
    have h2 := hauth k2 iv _ m2 hd
    exact absurd (hinj _ _ _ _ _ _ h2).1 hk

theorem wrong_iv_decrypt_none {K : Type} (P : Provider K) (hauth : Authentic P)
    (hinj : EncryptInjective P) (k : K) (iv iv2 m : List Nat) (hiv : iv2 ≠ iv) :
    P.decrypt k iv2 (P.encrypt k iv m) = none := by
  cases hd : P.decrypt k iv2 (P.encrypt k iv m) with
  | none => rfl
  | some m2 =>
    have h2 := hauth k iv2 _ m2 hd
    exact absurd (hinj _ _ _ _ _ _ h2).2.1 hiv

/-- C2, amended: under the idealized provider, a wrong (non-empty) password
always fails with the undifferentiated DecryptionFailed message, and flipping
any single bit of any byte of the envelope other than byte 0 also fails with
DecryptionFailed; but flipping a bit of byte 0 (the version byte) fails with
the UnsupportedVersion error instead, so the failure is not uniform over all
single-bit flips. -/
theorem tamper_and_wrong_password {K : Type} (P : Provider K)
    (hauth : Authentic P) (hinj : EncryptInjective P) (hder : DeriveInjective P)
    (htam : TamperEvident P)
    (salt iv data : List Nat) (pw : String) (env : List Nat)
    (hs : salt.length = 16) (hiv : iv.length = 12)
    (henc : encryptData P salt iv data pw = .ok env) :
    (∀ pw2 : String, pw2 ≠ pw → pw2.length ≠ 0 →
      decryptData P env pw2 = .error decryptFailedMsg)
    ∧ (∀ j b : Nat, 1 ≤ j → j < env.length → b < 8 →
      decryptData P (flipByteBit env j b) pw = .error decryptFailedMsg)
    ∧ (∀ b : Nat, b < 8 →
      decryptData P (flipByteBit env 0 b) pw = .error (versionErrMsg (Nat.xor 1 (2 ^ b)))) := by
  obtain ⟨hpw, henv⟩ := encryptData_ok P salt iv data pw env henc
  obtain ⟨hl, hv, hsalt, hivp, hct⟩ := env_parts salt iv
    (P.encrypt (P.derive pw salt) iv data) hs hiv
  refine ⟨?_, ?_, ?_⟩
  · intro pw2 hne hlen2
    rw [henv, decryptData_main P _ pw2 (by rw [hl]; omega) hlen2 hv, hsalt, hivp, hct]
    have hkne : P.derive pw2 salt ≠ P.derive pw salt := fun hEq => hne (hder _ _ _ _ hEq).1
    rw [wrong_key_decrypt_none P hauth hinj _ _ iv data hkne]
  · intro j b hj1 hjlen b8
    rw [henv] at hjlen
    rw [hl] at hjlen
    obtain ⟨i, rfl⟩ : ∃ i, j = i + 1 := ⟨j - 1, by omega⟩
    have hsplit : flipByteBit env (i + 1) b
        = 1 :: flipByteBit (salt ++ iv ++ P.encrypt (P.derive pw salt) iv data) i b := by
      rw [henv, flip_cons]
    by_cases hi16 : i < 16
    · have hflip : flipByteBit (salt ++ iv ++ P.encrypt (P.derive pw salt) iv data) i b
          = flipByteBit salt i b ++ iv ++ P.encrypt (P.derive pw salt) iv data := by
        rw [List.append_assoc, flip_append_left _ _ _ _ (by rw [hs]; omega),
          ← List.append_assoc]
      obtain ⟨hl2, hv2, hsalt2, hiv2, hct2⟩ := env_parts (flipByteBit salt i b) iv
        (P.encrypt (P.derive pw salt) iv data) (by rw [flip_length]; exact hs) hiv
      rw [hsplit, hflip, decryptData_main P _ pw (by rw [hl2]; omega) hpw hv2,
        hsalt2, hiv2, hct2]
      have hsne : flipByteBit salt i b ≠ salt :=
        flip_ne_self salt i b (by rw [hs]; omega)
      have hkne : P.derive pw (flipByteBit salt i b) ≠ P.derive pw salt :=
        fun hEq => hsne (hder _ _ _ _ hEq).2
      rw [wrong_key_decrypt_none P hauth hinj _ _ iv data hkne]
    · by_cases hi28 : i < 28
      · have hflip : flipByteBit (salt ++ iv ++ P.encrypt (P.derive pw salt) iv data) i b
            = salt ++ flipByteBit iv (i - 16) b ++ P.encrypt (P.derive pw salt) iv data := by
          rw [List.append_assoc, flip_append_right _ _ _ _ (by rw [hs]; omega),
            flip_append_left _ _ _ _ (by rw [hiv, hs]; omega), hs, ← List.append_assoc]
        obtain ⟨hl2, hv2, hsalt2, hiv2, hct2⟩ := env_parts salt (flipByteBit iv (i - 16) b)
          (P.encrypt (P.derive pw salt) iv data) hs (by rw [flip_length]; exact hiv)
        rw [hsplit, hflip, decryptData_main P _ pw (by rw [hl2]; omega) hpw hv2,
          hsalt2, hiv2, hct2]
        have hivne : flipByteBit iv (i - 16) b ≠ iv :=
          flip_ne_self iv (i - 16) b (by rw [hiv]; omega)
        rw [wrong_iv_decrypt_none P hauth hinj _ iv _ data hivne]
      · have hflip : flipByteBit (salt ++ iv ++ P.encrypt (P.derive pw salt) iv data) i b
            = salt ++ iv
              ++ flipByteBit (P.encrypt (P.derive pw salt) iv data) (i - 28) b := by
          rw [flip_append_right _ _ _ _ (by simp [hs, hiv]; omega)]
          rw [show (salt ++ iv).length = 28 from by simp [hs, hiv]]
        obtain ⟨hl2, hv2, hsalt2, hiv2, hct2⟩ := env_parts salt iv
          (flipByteBit (P.encrypt (P.derive pw salt) iv data) (i - 28) b) hs hiv
        rw [hsplit, hflip, decryptData_main P _ pw (by rw [hl2, flip_length]; omega) hpw hv2,
          hsalt2, hiv2, hct2]
        rw [htam (P.derive pw salt) iv data (i - 28) b (by omega) b8]
  · intro b b8
    have hflip : flipByteBit env 0 b
        = Nat.xor 1 (2 ^ b) :: (salt ++ iv ++ P.encrypt (P.derive pw salt) iv data) := by
      rw [henv, flip_cons_zero]
    rw [hflip]
    unfold decryptData
    rw [if_neg (by
        simp only [List.length_cons]
        have h5 := hl
        simp only [List.length_cons] at h5
        omega),
      if_neg hpw, if_pos (by simp only [List.getD_cons_zero]; exact xor_pow_ne 1 b)]
    simp only [List.getD_cons_zero]

/-- C2 counterexample: on a concrete envelope, flipping bit 0 of byte 0 (the
version byte) makes decryptData fail with the UnsupportedVersion error, which
differs from the DecryptionFailed error, so the failure is not uniformly
DecryptionFailed over all single-bit flips. -/
theorem tamper_uniform_error_counterexample :
    decryptData toyProvider (flipByteBit envC 0 0) "correct" = .error (versionErrMsg 0)
    ∧ versionErrMsg 0 ≠ decryptFailedMsg := by
  constructor
  · rfl
  · decide

/-- Witness for the amended C2 at concrete inputs: a wrong password and a
salt-byte bit flip both fail with DecryptionFailed. -/
theorem tamper_and_wrong_password_witness :
    decryptData toyProvider envC "wrong" = .error decryptFailedMsg
    ∧ decryptData toyProvider (flipByteBit envC 1 0) "correct" = .error decryptFailedMsg :=
  ⟨(tamper_and_wrong_password toyProvider toy_authentic toy_encInj toy_deriveInj toy_tamper
      salt0 iv0 dataC "correct" envC (by decide) (by decide) rfl).1 "wrong" (by decide)
      (by decide),
    (tamper_and_wrong_password toyProvider toy_authentic toy_encInj toy_deriveInj toy_tamper
      salt0 iv0 dataC "correct" envC (by decide) (by decide) rfl).2.1 1 0 (by decide)
      (by decide) (by decide)⟩

/-! ### C10: isEncryptedData classification -/

/-- C10: isEncryptedData data is true exactly when data has length at least 29
and byte 0 equal to 1; data starting with the SQLite signature byte 0x53 is
always classified as not encrypted (the dedicated SQLite branch, which
requires byte 0 to equal both 1 and 0x53, can never fire). -/
theorem isEncryptedData_spec (data : List Nat) :
    (isEncryptedData data = true ↔ 29 ≤ data.length ∧ data.getD 0 0 = 1)
    ∧ (data.getD 0 0 = 0x53 → isEncryptedData data = false) := by
  unfold isEncryptedData
  constructor
  · split_ifs with h1 h2 h3 <;> simp_all
  · intro h53
    split_ifs with h1 h2 h3 <;> simp_all

/-- Witness for C10: a 29-byte input starting with the SQLite signature is
classified as not encrypted (its first byte is not 1). -/
theorem isEncryptedData_witness : isEncryptedData sqliteHeader = false :=
  (isEncryptedData_spec sqliteHeader).2 (by decide)

/-! ### C3: verify classification -/

/-- C3: verify classifies exactly as claimed: no hash in the filename gives
UNVERIFIED with reason "No hash found in filename"; a present hash with a
digest that starts with it gives VERIFIED; otherwise TAMPERED carrying the
expected hash and the digest truncated to its length, which then differ; and
a digest recomputation error gives UNVERIFIED carrying the error, never
VERIFIED or TAMPERED. -/
theorem verify_classification (digestResult : Except Str Str) (filename : Str) :
    (extractHashFromFilename filename = none →
      verify digestResult filename =
        ⟨.UNVERIFIED, some noHashReason, none, none, none, none, none, none, some filename⟩)
    ∧ (∀ p d, extractHashFromFilename filename = some p → digestResult = .ok d →
        jsStartsWith d p = true →
        verify digestResult filename =
          ⟨.VERIFIED, none, some p, some d, none, none, none, none, some filename⟩)
    ∧ (∀ p d, extractHashFromFilename filename = some p → digestResult = .ok d →
        jsStartsWith d p = false →
        verify digestResult filename =
          ⟨.TAMPERED, none, none, none, some p, some (d.take p.length), some p, some d,
            some filename⟩
        ∧ d.take p.length ≠ p)
    ∧ (∀ p e, extractHashFromFilename filename = some p → digestResult = .error e →
        (verify digestResult filename).status = .UNVERIFIED
        ∧ (verify digestResult filename).reason = some (verifyErrReason e)) := by
  refine ⟨?_, ?_, ?_, ?_⟩
  · intro hn
    simp [verify, hn]
  · intro p d hp hd hs
    simp [verify, hp, hd, hs]
  · intro p d hp hd hs
    refine ⟨by simp [verify, hp, hd, hs], ?_⟩
    have := (beq_eq_false_iff_ne (a := d.take p.length) (b := p)).mp hs
    exact this
  · intro p e hp he
    simp [verify, hp, he]

/-! ### C5: generateCommitFilename determinism and parse round-trip -/

theorem hexEncode_length (l : List Nat) : (hexEncode l).length = 2 * l.length := by
  induction l with
  | nil => rfl
  | cons b t ih =>
    simp only [hexEncode, List.length_cons, ih]
    omega

theorem digitChar_hex (n : Nat) (h : n < 16) :
    isHexDigit (Nat.digitChar n) = true ∧ (Nat.digitChar n).toLower = Nat.digitChar n := by
  interval_cases n <;> exact ⟨by decide, by decide⟩

theorem hexEncode_mem (l : List Nat) (hb : ∀ x ∈ l, x < 256) (c : Char)
    (hc : c ∈ hexEncode l) : isHexDigit c = true ∧ c.toLower = c := by
  induction l with
  | nil => cases hc
  | cons b t ih =>
    have hb256 : b < 256 := hb b (by simp)
    simp only [hexEncode, List.mem_cons] at hc
    rcases hc with h1 | h1 | h1
    · rw [h1]
      exact digitChar_hex (b / 16) (by omega)
    · rw [h1]
      exact digitChar_hex (b % 16) (Nat.mod_lt _ (by norm_num))
    · exact ih (fun x hx => hb x (by simp [hx])) h1

theorem tryMatch_cons (c : Char) (rest : Str) :
    tryMatch (c :: rest) =
      if c = '.' ∧ 6 ≤ (rest.takeWhile isHexDigit).length
          ∧ (rest.takeWhile isHexDigit).length ≤ 64
          ∧ isDotHtmlSuffix (rest.dropWhile isHexDigit) then
        some ((rest.takeWhile isHexDigit).map Char.toLower)
      else none := rfl

theorem isDotHtmlSuffix_length (r : Str) (h : isDotHtmlSuffix r = true) : r.length = 5 := by
  unfold isDotHtmlSuffix at h
  have h2 := congrArg List.length (eq_of_beq h)
  simpa [dotHtml] using h2

theorem scanExtract_cons (c : Char) (rest : Str) :
    scanExtract (c :: rest) =
      match tryMatch (c :: rest) with
      | some h => some h
      | none => scanExtract rest := rfl

theorem scanExtract_append (a b : Str)
    (hfail : ∀ a1 a2 : Str, a = a1 ++ a2 → a2 ≠ [] → tryMatch (a2 ++ b) = none) :
    scanExtract (a ++ b) = scanExtract b := by
  induction a with
  | nil => simp
  | cons c t ih =>
    have h0 : tryMatch ((c :: t) ++ b) = none := hfail [] (c :: t) rfl (by simp)
    rw [List.cons_append] at h0
    rw [List.cons_append, scanExtract_cons, h0]
    exact ih (fun a1 a2 he hne => hfail (c :: a1) a2 (by rw [he, List.cons_append]) hne)

theorem dropWhile_append_length (p : Char → Bool) (t b : Str) (hb : b.dropWhile p = b) :
    b.length ≤ ((t ++ b).dropWhile p).length := by
  induction t with
  | nil => simp [hb]
  | cons c t2 ih =>
    by_cases hc : p c
    · rw [List.cons_append, List.dropWhile_cons_of_pos hc]
      exact ih
    · rw [List.cons_append, List.dropWhile_cons_of_neg hc]
      simp only [List.length_cons, List.length_append]
      omega

theorem takeWhile_append_exact (p : Char → Bool) (xs ys : Str)
    (hxs : ∀ x ∈ xs, p x = true) (hys : ys.takeWhile p = []) :
    (xs ++ ys).takeWhile p = xs ∧ (xs ++ ys).dropWhile p = ys := by
  induction xs with
  | nil =>
    refine ⟨by simpa using hys, ?_⟩
    have h2 := List.takeWhile_append_dropWhile (p := p) (l := ys)
    rw [hys] at h2
    simpa using h2
  | cons x xs2 ih =>
    have hx : p x = true := hxs x (by simp)
    obtain ⟨h1, h2⟩ := ih (fun y hy => hxs y (by simp [hy]))
    rw [List.cons_append, List.takeWhile_cons_of_pos hx, List.dropWhile_cons_of_pos hx]
    exact ⟨by rw [h1], h2⟩

theorem extract_generated (pfx basename : Str)
    (h6 : 6 ≤ pfx.length) (h64 : pfx.length ≤ 64)
    (hhex : ∀ c ∈ pfx, isHexDigit c = true)
    (hlow : ∀ c ∈ pfx, c.toLower = c) :
    extractHashFromFilename (basename ++ ('.' :: (pfx ++ dotHtml))) = some pfx := by
  have hfail : ∀ a1 a2 : Str, basename = a1 ++ a2 → a2 ≠ [] →
      tryMatch (a2 ++ ('.' :: (pfx ++ dotHtml))) = none := by
    intro a1 a2 he hne
    cases a2 with
    | nil => exact absurd rfl hne
    | cons c t =>
      rw [List.cons_append, tryMatch_cons]
      by_cases hc : c = '.'
      · rw [if_neg]
        intro hcon
        have hlen5 := isDotHtmlSuffix_length _ hcon.2.2.2
        have hge : ('.' :: (pfx ++ dotHtml)).length ≤
            ((t ++ ('.' :: (pfx ++ dotHtml))).dropWhile isHexDigit).length :=
          dropWhile_append_length isHexDigit t _
            (List.dropWhile_cons_of_neg (by decide))
        have hd5 : dotHtml.length = 5 := rfl
        simp only [List.length_cons, List.length_append] at hge
        omega
      · rw [if_neg]
        intro hcon
        exact hc hcon.1
  unfold extractHashFromFilename
  rw [scanExtract_append basename ('.' :: (pfx ++ dotHtml)) hfail, scanExtract_cons,
    tryMatch_cons]
  obtain ⟨ht, hd⟩ := takeWhile_append_exact isHexDigit pfx dotHtml hhex (by decide)
  rw [ht, hd, if_pos ⟨rfl, h6, h64, by decide⟩]
  have hmap : pfx.map Char.toLower = pfx := by
    have h2 : pfx.map Char.toLower = pfx.map id := List.map_congr_left hlow
    rw [h2, List.map_id]
  rw [hmap]

/-- C5: generateCommitFilename is deterministic (equal basename and content
give the identical name), and for any configured hashLength between 6 and 64
the generated name parses back: extractHashFromFilename returns exactly the
lowercase digest prefix of length hashLength (the digest oracle sha returns
the 32 SHA-256 bytes of the normalized content). -/
theorem generateCommitFilename_deterministic_roundtrip (hashLength : Nat)
    (sha : Str → List Nat) (basename content : Str)
    (h6 : 6 ≤ hashLength) (h64 : hashLength ≤ 64)
    (hlen : (sha content).length = 32) (hbytes : ∀ x ∈ sha content, x < 256) :
    (∀ basename2 content2 : Str, basename2 = basename → content2 = content →
      generateCommitFilename hashLength sha basename2 content2
        = generateCommitFilename hashLength sha basename content)
    ∧ extractHashFromFilename (generateCommitFilename hashLength sha basename content)
        = some ((generateContentHash sha content).take hashLength) := by
  constructor
  · intro b2 c2 hb hc
    rw [hb, hc]
  · have hplen : ((generateContentHash sha content).take hashLength).length = hashLength := by
      rw [List.length_take, generateContentHash, hexEncode_length, hlen]
      omega
    have hphex : ∀ c ∈ (generateContentHash sha content).take hashLength,
        isHexDigit c = true ∧ c.toLower = c := fun c hc =>
      hexEncode_mem (sha content) hbytes c (List.mem_of_mem_take hc)
    unfold generateCommitFilename
    rw [List.append_assoc, List.cons_append]
    exact extract_generated _ basename (by rw [hplen]; exact h6) (by rw [hplen]; exact h64)
      (fun c h => (hphex c h).1) (fun c h => (hphex c h).2)

/-- Witness for C5 at concrete inputs: hashLength 6, a constant 32-byte
digest, basename "doc". -/
theorem generateCommitFilename_witness :
    extractHashFromFilename
        (generateCommitFilename 6 (fun _ => List.replicate 32 171) "doc".data "x".data)
      = some ((generateContentHash (fun _ => List.replicate 32 171) "x".data).take 6) :=
  (generateCommitFilename_deterministic_roundtrip 6 (fun _ => List.replicate 32 171)
    "doc".data "x".data (by decide) (by decide) (by decide) (by decide)).2

/-- Witness for C3 at concrete inputs: a correctly addressed filename with a
matching digest is VERIFIED. -/
theorem verify_classification_witness :
    verify (.ok "ab12cd99ff".data) "doc.ab12cd.html".data =
      ⟨.VERIFIED, none, some "ab12cd".data, some "ab12cd99ff".data, none, none, none, none,
        some "doc.ab12cd.html".data⟩ :=
  (verify_classification (.ok "ab12cd99ff".data) "doc.ab12cd.html".data).2.1
    "ab12cd".data "ab12cd99ff".data (by decide) rfl (by decide)

/-! ### C6, C7, C8: commit-chain store -/

theorem addEntry_dup (h now text : String) (s : SimState) (hdup : h ∈ commitHashes s) :
    addEntry h now text s = ({ s with entries := s.entries ++ [text] }, false) := by
  unfold addEntry
  rw [if_pos hdup]

theorem addEntry_fresh (h now text : String) (s : SimState) (hdup : h ∉ commitHashes s) :
    addEntry h now text s =
      (⟨s.entries ++ [text],
        s.commits ++ [⟨h, s.metadata.commitHash, slice50 text, now⟩],
        ⟨some h, s.metadata.commitHash, some (slice50 text), some now⟩⟩, true) := by
  unfold addEntry
  rw [if_neg hdup]

theorem ensure_noop (h now : String) (s : SimState) (x : String)
    (hm : s.metadata.commitHash = some x) : ensureInitialCommit h now s = s := by
  unfold ensureInitialCommit
  rw [hm]

theorem init_state_eq (h0 now0 : String) :
    ensureInitialCommit h0 now0 initialSimState =
      ⟨[], [⟨h0, none, "Initial commit", now0⟩],
        ⟨some h0, none, some "Initial commit", some now0⟩⟩ := by
  unfold ensureInitialCommit initialSimState insertOrIgnore
  simp

theorem runOps_cons (s : SimState) (op : SimOp) (rest : List SimOp) :
    runOps s (op :: rest) = runOps (applyOp s op) rest := rfl

theorem commitHashes_entries (s : SimState) (e : List String) :
    commitHashes { s with entries := e } = commitHashes s := rfl

theorem parentsResolve_eq_true_iff (s : SimState) :
    parentsResolve s = true ↔
      ∀ r ∈ s.commits, ∀ p, r.parentHash = some p → p ∈ commitHashes s := by
  unfold parentsResolve
  rw [List.all_eq_true]
  constructor
  · intro h r hr p hp
    have h2 := h r hr
    rw [hp] at h2
    exact of_decide_eq_true h2
  · intro h r hr
    cases hcp : r.parentHash with
    | none => simp [hcp]
    | some p =>
      simp only [hcp]
      exact decide_eq_true (h r hr p hcp)

theorem applyOp_add (s : SimState) (h now text : String) :
    applyOp s (.add h now text) = (addEntry h now text s).1 := rfl

theorem applyOp_clear (s : SimState) : applyOp s .clear = clearData s := rfl

theorem applyOp_ensure (s : SimState) (h now : String) :
    applyOp s (.ensure h now) = ensureInitialCommit h now s := rfl

theorem inv1_step (s : SimState) (op : SimOp)
    (h : rootCount s = 1 ∧ s.metadata.commitHash.isSome = true) :
    rootCount (applyOp s op) = 1 ∧ (applyOp s op).metadata.commitHash.isSome = true := by
  obtain ⟨hr, hm⟩ := h
  obtain ⟨x, hx⟩ := Option.isSome_iff_exists.mp hm
  cases op with
  | add h now text =>
    rw [applyOp_add]
    by_cases hdup : h ∈ commitHashes s
    · rw [addEntry_dup h now text s hdup]
      exact ⟨hr, hm⟩
    · rw [addEntry_fresh h now text s hdup]
      refine ⟨?_, rfl⟩
      show ((s.commits ++ [(⟨h, s.metadata.commitHash, slice50 text, now⟩ : CommitRecord)]).filter
        (fun r => r.parentHash.isNone)).length = 1
      rw [List.filter_append]
      simp [hx, rootCount] at hr ⊢
      exact hr
  | clear =>
    rw [applyOp_clear]
    refine ⟨?_, hm⟩
    show ((s.commits.filter (fun r => r.parentHash.isNone)).filter
      (fun r => r.parentHash.isNone)).length = 1
    rw [List.filter_filter]
    simpa [rootCount] using hr
  | ensure h now =>
    rw [applyOp_ensure, ensure_noop h now s x hx]
    exact ⟨hr, hm⟩

theorem runOps_inv1 (ops : List SimOp) (s : SimState)
    (h : rootCount s = 1 ∧ s.metadata.commitHash.isSome = true) :
    rootCount (runOps s ops) = 1 ∧ (runOps s ops).metadata.commitHash.isSome = true := by
  induction ops generalizing s with
  | nil => exact h
  | cons op rest ih =>
    rw [runOps_cons]
    exact ih _ (inv1_step s op h)

theorem inv2_step (s : SimState) (op : SimOp) (hop : op ≠ SimOp.clear)
    (h : parentsResolve s = true ∧ s.metadata.commitHash.isSome = true
      ∧ ∀ x, s.metadata.commitHash = some x → x ∈ commitHashes s) :
    parentsResolve (applyOp s op) = true
      ∧ (applyOp s op).metadata.commitHash.isSome = true
      ∧ ∀ x, (applyOp s op).metadata.commitHash = some x →
          x ∈ commitHashes (applyOp s op) := by
  obtain ⟨hpr, hm, hmem⟩ := h
  obtain ⟨x, hx⟩ := Option.isSome_iff_exists.mp hm
  cases op with
  | add h now text =>
    rw [applyOp_add]
    by_cases hdup : h ∈ commitHashes s
    · rw [addEntry_dup h now text s hdup]
      exact ⟨hpr, hm, hmem⟩
    · rw [addEntry_fresh h now text s hdup]
      have hch : commitHashes
          (⟨s.entries ++ [text],
            s.commits ++ [⟨h, s.metadata.commitHash, slice50 text, now⟩],
            ⟨some h, s.metadata.commitHash, some (slice50 text), some now⟩⟩ : SimState)
          = commitHashes s ++ [h] := by
        unfold commitHashes
        rw [List.map_append]
        rfl
      refine ⟨?_, rfl, ?_⟩
      · rw [parentsResolve_eq_true_iff]
        intro r hr p hp
        rw [hch]
        simp only [List.mem_append] at hr
        rcases hr with hr | hr
        · exact List.mem_append_left _
            ((parentsResolve_eq_true_iff s).mp hpr r hr p hp)
        · simp only [List.mem_singleton] at hr
          rw [hr] at hp
          simp only at hp
          apply List.mem_append_left
          exact hmem p hp
      · intro y hy
        simp only [Option.some.injEq] at hy
        rw [hch, ← hy]
        exact List.mem_append_right _ (by simp)
  | clear => exact absurd rfl hop
  | ensure h now =>
    rw [applyOp_ensure, ensure_noop h now s x hx]
    exact ⟨hpr, hm, hmem⟩

theorem runOps_inv2 (ops : List SimOp) (s : SimState) (hnc : SimOp.clear ∉ ops)
    (h : parentsResolve s = true ∧ s.metadata.commitHash.isSome = true
      ∧ ∀ x, s.metadata.commitHash = some x → x ∈ commitHashes s) :
    parentsResolve (runOps s ops) = true := by
  induction ops generalizing s with
  | nil => exact h.1
  | cons op rest ih =>
    rw [runOps_cons]
    exact ih _ (fun hmem => hnc (List.mem_cons_of_mem op hmem))
      (inv2_step s op (fun he => hnc (List.mem_cons.mpr (Or.inl he.symm))) h)

/-- C6, amended: in every state reachable from a freshly initialized store by
add-entry, clear-data and re-initialization operations, exactly one commit
record has a null parentHash (the root); and as long as no clear-data
operation occurs, every record with a non-null parentHash references the hash
of a record present in the store.  (After a clear-data, a subsequent append
parents on the cleared head, whose record no longer exists — see the
counterexample.) -/
theorem commit_chain_invariant (h0 now0 : String) (ops : List SimOp) :
    rootCount (runOps (ensureInitialCommit h0 now0 initialSimState) ops) = 1
    ∧ (SimOp.clear ∉ ops →
      parentsResolve (runOps (ensureInitialCommit h0 now0 initialSimState) ops) = true) := by
  have hinit := init_state_eq h0 now0
  constructor
  · exact (runOps_inv1 ops _ (by rw [hinit]; exact ⟨rfl, rfl⟩)).1
  · intro hnc
    refine runOps_inv2 ops _ hnc ?_
    rw [hinit]
    refine ⟨?_, rfl, ?_⟩
    · rw [parentsResolve_eq_true_iff]
      intro r hr p hp
      simp only [List.mem_singleton] at hr
      rw [hr] at hp
      cases hp
    · intro y hy
      simp only [Option.some.injEq] at hy
      rw [← hy]
      simp [commitHashes]

/-- C6 counterexample: after initialize, append, clear-data, append, the
second appended record's parentHash references the cleared head, which no
longer exists in the store, so the linked-list invariant fails in a reachable
state. -/
theorem commit_chain_invariant_counterexample :
    parentsResolve (runOps (ensureInitialCommit "r0" "t0" initialSimState)
      [.add "h1" "t1" "e1", .clear, .add "h2" "t2" "e2"]) = false := by decide

/-- Witness for the amended C6 on a concrete clear-free operation sequence. -/
theorem commit_chain_invariant_witness :
    rootCount (runOps (ensureInitialCommit "r0" "t0" initialSimState)
      [.add "h1" "t1" "e1", .add "h2" "t2" "e2"]) = 1
    ∧ parentsResolve (runOps (ensureInitialCommit "r0" "t0" initialSimState)
      [.add "h1" "t1" "e1", .add "h2" "t2" "e2"]) = true :=
  ⟨(commit_chain_invariant "r0" "t0" [.add "h1" "t1" "e1", .add "h2" "t2" "e2"]).1,
    (commit_chain_invariant "r0" "t0" [.add "h1" "t1" "e1", .add "h2" "t2" "e2"]).2
      (by decide)⟩

/-- C7, amended: appending a commit whose hash already exists leaves the
commits table and the metadata unchanged, and hashes stay unique, but the
append path's plain INSERT raises the primary-key constraint error (success
flag false) rather than silently succeeding; only the initial-commit path's
INSERT OR IGNORE is a true no-op. -/
theorem duplicate_insert_spec :
    (∀ (s : SimState) (h now text : String), h ∈ commitHashes s →
      (addEntry h now text s).2 = false
      ∧ ((addEntry h now text s).1).commits = s.commits
      ∧ ((addEntry h now text s).1).metadata = s.metadata)
    ∧ (∀ (cs : List CommitRecord) (r : CommitRecord),
      r.hash ∈ cs.map CommitRecord.hash → insertOrIgnore r cs = cs) := by
  constructor
  · intro s h now text hdup
    rw [addEntry_dup h now text s hdup]
    exact ⟨rfl, rfl, rfl⟩
  · intro cs r hr
    unfold insertOrIgnore
    rw [if_pos hr]

/-- C7 counterexample: re-appending the root hash of a concrete store raises
the primary-key constraint error (the insert fails), refuting the claim that
re-appending an existing hash raises no error. -/
theorem duplicate_append_counterexample :
    "aa" ∈ commitHashes (ensureInitialCommit "aa" "t0" initialSimState)
    ∧ (addEntry "aa" "t1" "x" (ensureInitialCommit "aa" "t0" initialSimState)).2 = false := by
  constructor
  · decide
  · decide

/-- Witness for the amended C7 on a concrete duplicate append. -/
theorem duplicate_insert_witness :
    ((addEntry "aa" "t1" "x" (ensureInitialCommit "aa" "t0" initialSimState)).1).commits
      = (ensureInitialCommit "aa" "t0" initialSimState).commits :=
  (duplicate_insert_spec.1 (ensureInitialCommit "aa" "t0" initialSimState) "aa" "t1" "x"
    (by decide)).2.1

theorem mkChain_length (p : String) (l : List AddIn) : (mkChain p l).length = l.length := by
  induction l generalizing p with
  | nil => rfl
  | cons a rest ih => simp [mkChain, ih]

theorem mkChain_parent_not_none (p : String) (l : List AddIn) :
    ∀ r ∈ mkChain p l, r.parentHash.isNone = false := by
  induction l generalizing p with
  | nil => intro r hr; cases hr
  | cons a rest ih =>
    intro r hr
    simp only [mkChain, List.mem_cons] at hr
    rcases hr with hr | hr
    · rw [hr]
      rfl
    · exact ih a.h r hr

theorem runAppends_cons (s : SimState) (a : AddIn) (rest : List AddIn) :
    runAppends s (a :: rest) = runAppends (addEntry a.h a.now a.text s).1 rest := rfl

theorem runAppends_spec (l : List AddIn) (s : SimState) (p : String)
    (hp : s.metadata.commitHash = some p)
    (hnd : (commitHashes s ++ l.map AddIn.h).Nodup) :
    (runAppends s l).commits = s.commits ++ mkChain p l
    ∧ (runAppends s l).metadata.commitHash = some (lastHash p l) := by
  induction l generalizing s p with
  | nil =>
    refine ⟨by simp [runAppends, mkChain], ?_⟩
    rw [show runAppends s [] = s from rfl, hp]
    rfl
  | cons a rest ih =>
    have hfresh : a.h ∉ commitHashes s := by
      rw [List.nodup_append] at hnd
      intro hmem
      exact hnd.2.2 hmem (by simp)
    rw [runAppends_cons, addEntry_fresh a.h a.now a.text s hfresh]
    have hch : commitHashes
        ⟨s.entries ++ [a.text],
          s.commits ++ [⟨a.h, s.metadata.commitHash, slice50 a.text, a.now⟩],
          ⟨some a.h, s.metadata.commitHash, some (slice50 a.text), some a.now⟩⟩
        = commitHashes s ++ [a.h] := by
      unfold commitHashes
      rw [List.map_append]
      rfl
    have hnd2 : (commitHashes
        ⟨s.entries ++ [a.text],
          s.commits ++ [⟨a.h, s.metadata.commitHash, slice50 a.text, a.now⟩],
          ⟨some a.h, s.metadata.commitHash, some (slice50 a.text), some a.now⟩⟩
        ++ rest.map AddIn.h).Nodup := by
      rw [hch, List.append_assoc]
      have h2 : [a.h] ++ rest.map AddIn.h = a.h :: rest.map AddIn.h := rfl
      rw [h2]
      simpa using hnd
    obtain ⟨hc, hm⟩ := ih _ a.h rfl hnd2
    refine ⟨?_, by rw [hm]; rfl⟩
    rw [hc, hp]
    simp [mkChain, List.append_assoc]

/-- C8: starting from a freshly initialized store holding only the root, N
sequential appends with fresh pairwise-distinct hashes produce exactly the
expected chain: N+1 commit records, the root as the unique record with null
parentHash, and each appended record parented on the hash that was head
immediately before it (the shape mkChain makes each parentHash the previous
append's hash, the first being the root hash). -/
theorem sequential_appends_chain (h0 now0 : String) (l : List AddIn)
    (hnd : (h0 :: l.map AddIn.h).Nodup) :
    (runAppends (ensureInitialCommit h0 now0 initialSimState) l).commits
        = ⟨h0, none, "Initial commit", now0⟩ :: mkChain h0 l
    ∧ (runAppends (ensureInitialCommit h0 now0 initialSimState) l).commits.length
        = l.length + 1
    ∧ rootCount (runAppends (ensureInitialCommit h0 now0 initialSimState) l) = 1
    ∧ (runAppends (ensureInitialCommit h0 now0 initialSimState) l).metadata.commitHash
        = some (lastHash h0 l) := by
  have hinit := init_state_eq h0 now0
  obtain ⟨hc, hm⟩ := runAppends_spec l (ensureInitialCommit h0 now0 initialSimState) h0
    (by rw [hinit]) (by rw [hinit]; simpa [commitHashes] using hnd)
  have hc2 : (runAppends (ensureInitialCommit h0 now0 initialSimState) l).commits
      = ⟨h0, none, "Initial commit", now0⟩ :: mkChain h0 l := by
    rw [hc, hinit]
    rfl
  refine ⟨hc2, ?_, ?_, hm⟩
  · rw [hc2]
    simp [mkChain_length]
  · unfold rootCount
    rw [hc2]
    rw [List.filter_cons_of_pos (by rfl)]
    rw [List.filter_eq_nil_iff.mpr (by
      intro r hr
      rw [mkChain_parent_not_none h0 l r hr]
      simp)]
    rfl

/-- Witness for C8 at the spec scenario: four appends M1..M4 give five
records and head h4. -/
theorem sequential_appends_chain_witness :
    (runAppends (ensureInitialCommit "r0" "t0" initialSimState) addIns4).commits.length = 5
    ∧ rootCount (runAppends (ensureInitialCommit "r0" "t0" initialSimState) addIns4) = 1 :=
  ⟨(sequential_appends_chain "r0" "t0" addIns4 (by decide)).2.1,
    (sequential_appends_chain "r0" "t0" addIns4 (by decide)).2.2.1⟩

/-! ### C9: save cancellation and password adoption -/

/-- C9, amended: in the core saveToFile, user cancellation of the picker
returns the cancelled non-error outcome with the session unchanged, and the
session password changes only when the outcome is a successful write; but in
the storage-persisting variant, when persistToStorage is enabled a requested
password change is adopted at the local-persistence step before the
interactive write, so it survives cancellation (see the counterexample). -/
theorem save_cancel_password_spec (env : SaveEnv) (sess : CoreSession)
    (password : Option String) (changePassword : Bool) :
    (env.hasPicker = true → env.userCancels = true →
      (sess.encrypted && !(strTruthy (jsOrPassword password sess.currentPassword))) = false →
      coreSaveToFile env sess password changePassword = (.cancelled false, sess))
    ∧ (∀ (out : SaveOutcome) (sess2 : CoreSession),
        coreSaveToFile env sess password changePassword = (out, sess2) →
        sess2.currentPassword ≠ sess.currentPassword →
        ∃ m pc, out = .committed m pc)
    ∧ (∀ (s7 : P7Session), s7.persistToStorage = true → changePassword = true →
        strTruthy password = true →
        ((p7SaveToFile env s7 password changePassword).2).currentPassword = password) := by
  refine ⟨?_, ?_, ?_⟩
  · intro hp hc hnf
    unfold coreSaveToFile
    rw [hnf]
    simp [hp, hc]
  · intro out sess2 heq hne
    unfold coreSaveToFile at heq
    by_cases h1 : (sess.encrypted
        && !(strTruthy (jsOrPassword password sess.currentPassword))) = true
    · rw [if_pos h1] at heq
      simp only [Prod.mk.injEq] at heq
      exact absurd (by rw [← heq.2]) hne
    · rw [if_neg (by simpa using h1)] at heq
      by_cases h2 : env.hasPicker = true
      · rw [if_pos h2] at heq
        by_cases h3 : env.userCancels = true
        · rw [if_pos h3] at heq
          simp only [Prod.mk.injEq] at heq
          exact absurd (by rw [← heq.2]) hne
        · rw [if_neg (by simpa using h3)] at heq
          simp only [Prod.mk.injEq] at heq
          exact ⟨_, _, heq.1.symm⟩
      · rw [if_neg (by simpa using h2)] at heq
        simp only [Prod.mk.injEq] at heq
        exact ⟨_, _, heq.1.symm⟩
  · intro s7 hp7 hcp htr
    unfold p7SaveToFile
    rw [hp7, hcp, htr]
    simp only [Bool.and_self, Bool.true_and, if_true]
    split_ifs <;> rfl

/-- C9 counterexample: in the storage-persisting variant with persistToStorage
enabled, the user cancels the picker, yet the requested password change has
already been adopted into the session's current password before the write. -/
theorem save_cancel_password_counterexample :
    (p7SaveToFile ⟨true, true⟩ ⟨some "old", true, true⟩ (some "new") true).1
        = .cancelled true
    ∧ ((p7SaveToFile ⟨true, true⟩ ⟨some "old", true, true⟩
        (some "new") true).2).currentPassword = some "new" :=
  ⟨rfl, rfl⟩

/-- Witness for the amended C9 on a concrete cancelled save. -/
theorem save_cancel_password_witness :
    coreSaveToFile ⟨true, true⟩ ⟨some "pw", true⟩ none false
      = (.cancelled false, ⟨some "pw", true⟩) :=
  (save_cancel_password_spec ⟨true, true⟩ ⟨some "pw", true⟩ none false).1 rfl rfl (by decide)

end MemoryFileVerif
